import Mathlib

/-!
# Grid-based sparsification engine: a shallow embedding

This file embeds the grid sparsifier of `SparseComputation.py` into Lean 4.

* A numpy `ndarray` of shape n×k with numeric entries is embedded as
  `List (List ℚ)` (exact arithmetic stands in for the numeric entries; all
  claims under study are about exact values of the computation).
* Python exceptions are embedded with `Except SCError`:
  `TypeError` ↦ `SCError.typeError`, `ValueError` ↦ `SCError.valueError`,
  `IndexError` (out-of-bounds subscript such as `data[0]` on an empty
  array) ↦ `SCError.indexError`.
  The `isinstance(data, np.ndarray)` guards cannot fire in the typed
  embedding (the argument type is the matrix type), so `typeError` is never
  produced by the embedded functions; it remains in the error type because
  the source can raise it on non-array inputs.
* The Python `int()` call truncates toward zero; `py_int` below does the same on ℚ.
* The insertion-ordered Python dict from box id to index list is embedded as
  an association list `List (ℤ × List ℕ)` in insertion order with unique
  keys.
-/

namespace SparseComputation

/-- Error kinds raised by the source: Python `TypeError`, `ValueError` and
`IndexError`. -/
inductive SCError where
  | typeError : SCError
  | valueError : SCError
  | indexError : SCError
deriving DecidableEq, Repr

/-- Python `int()` applied to an exact rational: truncation toward zero. -/
def py_int (q : ℚ) : ℤ := if 0 ≤ q then ⌊q⌋ else ⌈q⌉

/-- Inner loop of `_get_min`:
`for i in range(0, n): if vec[i] < minimum[i]: minimum[i] = vec[i]`,
where `n = len(minimum)`.  Reading `vec[i]` past the end of `vec` raises
`IndexError`; the partially updated local `minimum` is then discarded
because the exception propagates. -/
def vec_min : List ℚ → List ℚ → Except SCError (List ℚ)
  | [], _ => .ok []
  | _ :: _, [] => .error .indexError
  | m :: ms, v :: vs =>
    match vec_min ms vs with
    | .error e => .error e
    | .ok rest => .ok ((if v < m then v else m) :: rest)

/-- Outer loop of `_get_min`: `for vec in data`, folding `vec_min` over all
rows. -/
def get_min_loop : List ℚ → List (List ℚ) → Except SCError (List ℚ)
  | minimum, [] => .ok minimum
  | minimum, vec :: rest =>
    match vec_min minimum vec with
    | .error e => .error e
    | .ok m => get_min_loop m rest

/-- Embedding of `_get_min(data)`: per-axis minimum.  `minimum = np.copy(data[0])` raises
`IndexError` on an empty array; then every row of `data` (including row 0)
is scanned. -/
def get_min (data : List (List ℚ)) : Except SCError (List ℚ) :=
  match data with
  | [] => .error .indexError
  | d0 :: _ => get_min_loop d0 data

/-- Inner loop of `_get_max`, mirror image of `vec_min` with
`if vec[i] > maximum[i]: maximum[i] = vec[i]`. -/
def vec_max : List ℚ → List ℚ → Except SCError (List ℚ)
  | [], _ => .ok []
  | _ :: _, [] => .error .indexError
  | m :: ms, v :: vs =>
    match vec_max ms vs with
    | .error e => .error e
    | .ok rest => .ok ((if m < v then v else m) :: rest)

/-- Outer loop of `_get_max`. -/
def get_max_loop : List ℚ → List (List ℚ) → Except SCError (List ℚ)
  | maximum, [] => .ok maximum
  | maximum, vec :: rest =>
    match vec_max maximum vec with
    | .error e => .error e
    | .ok m => get_max_loop m rest

/-- Embedding of `_get_max(data)`: per-axis maximum. -/
def get_max (data : List (List ℚ)) : Except SCError (List ℚ) :=
  match data with
  | [] => .error .indexError
  | d0 :: _ => get_max_loop d0 data

/-- The scale-factor loop of `_rescale_data`:
`coef.append(float(gridResolution)/(maximum[i]-minimum[i]))` guarded by
`except ZeroDivisionError: coef.append(0)`.  The zero-denominator branch is
the explicit test `maximum[i] - minimum[i] = 0`. -/
def coefs (r : ℕ) (maximum minimum : List ℚ) : List ℚ :=
  List.zipWith
    (fun M m => if M - m = 0 then 0 else (r : ℚ) / (M - m)) maximum minimum

/-- Row loop body of `_rescale_data`:
`rescaled_vec.append(min(int((vec[i]-minimum[i])*coef[i]), gridResolution-1))`
for `i in range(n)` with `n = len(minimum) = len(coef)`; a row shorter than
`n` raises `IndexError`. -/
def rescale_vec (r : ℕ) : List ℚ → List ℚ → List ℚ → Except SCError (List ℤ)
  | [], [], _ => .ok []
  | m :: ms, c :: cs, v :: vs =>
    match rescale_vec r ms cs vs with
    | .error e => .error e
    | .ok rest => .ok (min (py_int ((v - m) * c)) ((r : ℤ) - 1) :: rest)
  | _, _, _ => .error .indexError

/-- Loop `for vec in data: rescaled_data.append(rescaled_vec)`. -/
def rescale_rows (r : ℕ) (minimum coef : List ℚ) :
    List (List ℚ) → Except SCError (List (List ℤ))
  | [] => .ok []
  | vec :: rest =>
    match rescale_vec r minimum coef vec with
    | .error e => .error e
    | .ok rvec =>
      match rescale_rows r minimum coef rest with
      | .error e => .error e
      | .ok rrest => .ok (rvec :: rrest)

/-- Embedding of `_rescale_data(data)`: compute per-axis max and min (in that order, as
in the source), the scale factors, and the rescaled integer matrix. -/
def rescale_data (r : ℕ) (data : List (List ℚ)) :
    Except SCError (List (List ℤ)) :=
  match data with
  | [] => .error .indexError
  | _ :: _ =>
    match get_max data with
    | .error e => .error e
    | .ok maximum =>
      match get_min data with
      | .error e => .error e
      | .ok minimum => rescale_rows r minimum (coefs r maximum minimum) data

/-- The accumulation loop of `_index_to_boxe_id`:
`for i in range(0, len(array)): result += array[i]*gridResolution**i`,
with `t` the index of the first remaining coordinate. -/
def box_id_from (r : ℕ) : ℕ → List ℤ → ℤ
  | _, [] => 0
  | t, a :: rest => a * (r : ℤ) ^ t + box_id_from r (t + 1) rest

/-- Embedding of `_index_to_boxe_id(array)`: mixed-radix encoding
`Σ array[i] * gridResolution^i`. -/
def index_to_boxe_id (r : ℕ) (array : List ℤ) : ℤ := box_id_from r 0 array

/-- Dict update in `_get_boxes`:
`if not (box_id in result): result[box_id] = []` then
`result[box_id].append(i)`, on the insertion-ordered association list. -/
def insert_box (boxes : List (ℤ × List ℕ)) (bid : ℤ) (i : ℕ) :
    List (ℤ × List ℕ) :=
  if ∃ p ∈ boxes, p.1 = bid then
    boxes.map (fun p => if p.1 = bid then (p.1, p.2 ++ [i]) else p)
  else boxes ++ [(bid, [i])]

/-- Row loop of `_get_boxes`: `for i in range(0, len(data))`, keyed by
`_index_to_boxe_id(data[i])`.  Before encoding, `_index_to_boxe_id` reads
`array[0]` for its type check, which raises `IndexError` on an empty
coordinate row (the check itself cannot fire on typed integer
coordinates). -/
def get_boxes_aux (r : ℕ) : ℕ → List (ℤ × List ℕ) → List (List ℤ) →
    Except SCError (List (ℤ × List ℕ))
  | _, acc, [] => .ok acc
  | i, acc, row :: rest =>
    match row with
    | [] => .error .indexError
    | _ :: _ =>
      get_boxes_aux r (i + 1) (insert_box acc (index_to_boxe_id r row) i) rest

/-- Embedding of `_get_boxes(data)`: sort the rescaled rows into boxes.  The dead read
`n = len(data[0])` raises `IndexError` on an empty matrix. -/
def get_boxes (r : ℕ) (data : List (List ℤ)) :
    Except SCError (List (ℤ × List ℕ)) :=
  match data with
  | [] => .error .indexError
  | _ :: _ => get_boxes_aux r 0 [] data

/-- Enumeration `itertools.product(range(-1, 2), repeat=n)`: all length-`n` vectors over
`{-1, 0, 1}`, leftmost component varying slowest. -/
def increments : ℕ → List (List ℤ)
  | 0 => [[]]
  | n + 1 =>
    ((increments n).map (fun t => (-1 : ℤ) :: t)) ++
      ((increments n).map (fun t => (0 : ℤ) :: t)) ++
        ((increments n).map (fun t => (1 : ℤ) :: t))

/-- Lookup for `id_incremented in boxes_dict` and `boxes_dict[id_incremented]`: first (and
with unique keys, only) entry of the association list with the given key. -/
def lookup_box (boxes : List (ℤ × List ℕ)) (bid : ℤ) : Option (List ℕ) :=
  match boxes.find? (fun p => decide (p.1 = bid)) with
  | some p => some p.2
  | none => none

/-- Product `itertools.product(boxes_dict[box_id], boxes_dict[id_incremented])`. -/
def cart_prod : List ℕ → List ℕ → List (ℕ × ℕ)
  | [], _ => []
  | a :: as, B => B.map (fun b => (a, b)) ++ cart_prod as B

/-- Pair filter of `_get_pairs`:
`if a < b and not ((a, b) in pairs): pairs.append((a, b))`. -/
def pair_step (pairs : List (ℕ × ℕ)) (p : ℕ × ℕ) : List (ℕ × ℕ) :=
  if p.1 < p.2 ∧ p ∉ pairs then pairs ++ [p] else pairs

/-- Body of the `increment` loop of `_get_pairs`: compute
`id_incremented = box_id + Σ increment[i]*gridResolution**i`; if that id is
occupied, run the Cartesian product through the pair filter. -/
def offset_step (r : ℕ) (boxes : List (ℤ × List ℕ)) (box : ℤ × List ℕ)
    (pairs : List (ℕ × ℕ)) (inc : List ℤ) : List (ℕ × ℕ) :=
  match lookup_box boxes (box.1 + index_to_boxe_id r inc) with
  | none => pairs
  | some other => (cart_prod box.2 other).foldl pair_step pairs

/-- Loop `for increment in itertools.product(range(-1, 2), repeat=n)`. -/
def process_box (r n : ℕ) (boxes : List (ℤ × List ℕ))
    (pairs : List (ℕ × ℕ)) (box : ℤ × List ℕ) : List (ℕ × ℕ) :=
  (increments n).foldl (offset_step r boxes box) pairs

/-- Loop `for box_id in boxes_dict`, starting from `pairs = []`. -/
def emit_pairs (r n : ℕ) (boxes : List (ℤ × List ℕ)) : List (ℕ × ℕ) :=
  boxes.foldl (process_box r n boxes) []

/-- Embedding of `_get_pairs(data)`: type check, the `len(data[0]) > 3` ValueError guard,
rescaling, bucketing, then neighbor expansion and pair emission. -/
def get_pairs (r : ℕ) (data : List (List ℚ)) :
    Except SCError (List (ℕ × ℕ)) :=
  match data with
  | [] => .error .indexError
  | d0 :: _ =>
    if 3 < d0.length then .error .valueError
    else
      match rescale_data r data with
      | .error e => .error e
      | .ok rescaled =>
        match get_boxes r rescaled with
        | .error e => .error e
        | .ok boxes => .ok (emit_pairs r d0.length boxes)

/-- Embedding of `get_similar_indices(data)`: reduce the dimension with the injected
`DimReducer` (an opaque capability here), then run `_get_pairs`. -/
def get_similar_indices (r : ℕ)
    (fit_transform : List (List ℚ) → List (List ℚ))
    (data : List (List ℚ)) : Except SCError (List (ℕ × ℕ)) :=
  get_pairs r (fit_transform data)

end SparseComputation

namespace SparseComputation

/-! ## Properties of the min/max scan -/

lemma vec_min_ok : ∀ {ms vs res : List ℚ}, vec_min ms vs = .ok res →
    res.length = ms.length ∧ ms.length ≤ vs.length ∧
      ∀ i, i < ms.length →
        res.getD i 0 ≤ ms.getD i 0 ∧ res.getD i 0 ≤ vs.getD i 0 := by
  intro ms
  induction ms with
  | nil =>
    intro vs res h
    simp only [vec_min] at h
    cases h
    simp
  | cons m ms ih =>
    intro vs res h
    match vs with
    | [] => simp [vec_min] at h
    | v :: vs =>
      simp only [vec_min] at h
      cases hrec : vec_min ms vs with
      | error e => rw [hrec] at h; cases h
      | ok rest =>
        rw [hrec] at h
        cases h
        obtain ⟨hlen, hle, hidx⟩ := ih hrec
        refine ⟨by simp [hlen], by simpa using hle, ?_⟩
        intro i hi
        cases i with
        | zero =>
          constructor
          · by_cases hc : v < m <;> simp [hc]
            exact le_of_lt hc
          · by_cases hc : v < m <;> simp [hc]
            exact le_of_not_lt hc
        | succ i =>
          simpa using hidx i (by simpa using hi)

lemma get_min_loop_ok : ∀ {rows : List (List ℚ)} {minimum res : List ℚ},
    get_min_loop minimum rows = .ok res →
    res.length = minimum.length ∧
      (∀ i, i < minimum.length → res.getD i 0 ≤ minimum.getD i 0) ∧
      ∀ row ∈ rows, minimum.length ≤ row.length ∧
        ∀ i, i < minimum.length → res.getD i 0 ≤ row.getD i 0 := by
  intro rows
  induction rows with
  | nil =>
    intro minimum res h
    simp only [get_min_loop] at h
    cases h
    simp
  | cons vec rest ih =>
    intro minimum res h
    simp only [get_min_loop] at h
    cases hvm : vec_min minimum vec with
    | error e => rw [hvm] at h; cases h
    | ok m =>
      rw [hvm] at h
      obtain ⟨hlen, hle, hidx⟩ := vec_min_ok hvm
      obtain ⟨ihlen, ihmin, ihrows⟩ := ih h
      rw [hlen] at ihlen ihmin ihrows
      refine ⟨ihlen, ?_, ?_⟩
      · intro i hi
        exact le_trans (ihmin i hi) (hidx i hi).1
      · intro row hrow
        rcases List.mem_cons.mp hrow with hrow | hrow
        · subst hrow
          exact ⟨hle, fun i hi => le_trans (ihmin i hi) (hidx i hi).2⟩
        · exact ihrows row hrow

lemma get_min_ok {data : List (List ℚ)} {mins : List ℚ}
    (h : get_min data = .ok mins) :
    mins.length = (data.headD []).length ∧
      ∀ row ∈ data, (data.headD []).length ≤ row.length ∧
        ∀ i, i < mins.length → mins.getD i 0 ≤ row.getD i 0 := by
  match data with
  | [] => simp [get_min] at h
  | d0 :: rest =>
    simp only [get_min] at h
    obtain ⟨hlen, _, hrows⟩ := get_min_loop_ok h
    refine ⟨by simpa using hlen, ?_⟩
    intro row hrow
    obtain ⟨h1, h2⟩ := hrows row hrow
    exact ⟨by simpa using h1, fun i hi => h2 i (hlen ▸ hi)⟩

lemma vec_max_ok : ∀ {ms vs res : List ℚ}, vec_max ms vs = .ok res →
    res.length = ms.length ∧ ms.length ≤ vs.length ∧
      ∀ i, i < ms.length →
        ms.getD i 0 ≤ res.getD i 0 ∧ vs.getD i 0 ≤ res.getD i 0 := by
  intro ms
  induction ms with
  | nil =>
    intro vs res h
    simp only [vec_max] at h
    cases h
    simp
  | cons m ms ih =>
    intro vs res h
    match vs with
    | [] => simp [vec_max] at h
    | v :: vs =>
      simp only [vec_max] at h
      cases hrec : vec_max ms vs with
      | error e => rw [hrec] at h; cases h
      | ok rest =>
        rw [hrec] at h
        cases h
        obtain ⟨hlen, hle, hidx⟩ := ih hrec
        refine ⟨by simp [hlen], by simpa using hle, ?_⟩
        intro i hi
        cases i with
        | zero =>
          constructor
          · by_cases hc : m < v <;> simp [hc]
            exact le_of_lt hc
          · by_cases hc : m < v <;> simp [hc]
            exact le_of_not_lt hc
        | succ i =>
          simpa using hidx i (by simpa using hi)

lemma get_max_loop_ok : ∀ {rows : List (List ℚ)} {maximum res : List ℚ},
    get_max_loop maximum rows = .ok res →
    res.length = maximum.length ∧
      (∀ i, i < maximum.length → maximum.getD i 0 ≤ res.getD i 0) ∧
      ∀ row ∈ rows, maximum.length ≤ row.length ∧
        ∀ i, i < maximum.length → row.getD i 0 ≤ res.getD i 0 := by
  intro rows
  induction rows with
  | nil =>
    intro maximum res h
    simp only [get_max_loop] at h
    cases h
    simp
  | cons vec rest ih =>
    intro maximum res h
    simp only [get_max_loop] at h
    cases hvm : vec_max maximum vec with
    | error e => rw [hvm] at h; cases h
    | ok m =>
      rw [hvm] at h
      obtain ⟨hlen, hle, hidx⟩ := vec_max_ok hvm
      obtain ⟨ihlen, ihmax, ihrows⟩ := ih h
      rw [hlen] at ihlen ihmax ihrows
      refine ⟨ihlen, ?_, ?_⟩
      · intro i hi
        exact le_trans (hidx i hi).1 (ihmax i hi)
      · intro row hrow
        rcases List.mem_cons.mp hrow with hrow | hrow
        · subst hrow
          exact ⟨hle, fun i hi => le_trans (hidx i hi).2 (ihmax i hi)⟩
        · exact ihrows row hrow

lemma get_max_ok {data : List (List ℚ)} {maxs : List ℚ}
    (h : get_max data = .ok maxs) :
    maxs.length = (data.headD []).length ∧
      ∀ row ∈ data, (data.headD []).length ≤ row.length ∧
        ∀ i, i < maxs.length → row.getD i 0 ≤ maxs.getD i 0 := by
  match data with
  | [] => simp [get_max] at h
  | d0 :: rest =>
    simp only [get_max] at h
    obtain ⟨hlen, _, hrows⟩ := get_max_loop_ok h
    refine ⟨by simpa using hlen, ?_⟩
    intro row hrow
    obtain ⟨h1, h2⟩ := hrows row hrow
    exact ⟨by simpa using h1, fun i hi => h2 i (hlen ▸ hi)⟩

end SparseComputation

namespace SparseComputation

/-! ## Properties of the rescale stage -/

lemma coefs_getD {r : ℕ} : ∀ (maxs mins : List ℚ) (i : ℕ),
    i < maxs.length → i < mins.length →
    (coefs r maxs mins).getD i 0 =
      if maxs.getD i 0 - mins.getD i 0 = 0 then 0
      else (r : ℚ) / (maxs.getD i 0 - mins.getD i 0) := by
  intro maxs
  induction maxs with
  | nil => intro mins i h; simp at h
  | cons M maxs ih =>
    intro mins i h1 h2
    match mins with
    | [] => simp at h2
    | m :: mins =>
      cases i with
      | zero => simp [coefs]
      | succ i =>
        have := ih mins i (by simpa using h1) (by simpa using h2)
        simpa [coefs] using this

lemma coefs_length {r : ℕ} (maxs mins : List ℚ) :
    (coefs r maxs mins).length = min maxs.length mins.length := by
  simp [coefs]

lemma rescale_vec_ok {r : ℕ} : ∀ {ms cs vs : List ℚ} {res : List ℤ},
    rescale_vec r ms cs vs = .ok res →
    res.length = ms.length ∧ ∀ i, i < ms.length →
      res.getD i 0 =
        min (py_int ((vs.getD i 0 - ms.getD i 0) * cs.getD i 0))
          ((r : ℤ) - 1) := by
  intro ms
  induction ms with
  | nil =>
    intro cs vs res h
    match cs with
    | [] => simp only [rescale_vec] at h; cases h; simp
    | c :: cs => simp [rescale_vec] at h
  | cons m ms ih =>
    intro cs vs res h
    match cs, vs with
    | [], _ => simp [rescale_vec] at h
    | c :: cs, [] => simp [rescale_vec] at h
    | c :: cs, v :: vs =>
      simp only [rescale_vec] at h
      cases hrec : rescale_vec r ms cs vs with
      | error e => rw [hrec] at h; cases h
      | ok rest =>
        rw [hrec] at h
        cases h
        obtain ⟨hlen, hidx⟩ := ih hrec
        refine ⟨by simp [hlen], ?_⟩
        intro i hi
        cases i with
        | zero => simp
        | succ i => simpa using hidx i (by simpa using hi)

lemma rescale_vec_exists {r : ℕ} : ∀ {ms cs vs : List ℚ},
    cs.length = ms.length → ms.length ≤ vs.length →
    ∃ res, rescale_vec r ms cs vs = .ok res := by
  intro ms
  induction ms with
  | nil =>
    intro cs vs hc _
    match cs with
    | [] => exact ⟨[], rfl⟩
    | c :: cs => simp at hc
  | cons m ms ih =>
    intro cs vs hc hv
    match cs, vs with
    | [], _ => simp at hc
    | c :: cs, [] => simp at hv
    | c :: cs, v :: vs =>
      obtain ⟨res, hres⟩ := ih (by simpa using hc) (by simpa using hv)
      exact ⟨min (py_int ((v - m) * c)) ((r : ℤ) - 1) :: res,
        by simp only [rescale_vec, hres]⟩

lemma rescale_rows_ok {r : ℕ} {ms cs : List ℚ} :
    ∀ {rows : List (List ℚ)} {res : List (List ℤ)},
    rescale_rows r ms cs rows = .ok res →
    res.length = rows.length ∧ ∀ j, j < rows.length →
      rescale_vec r ms cs (rows.getD j []) = .ok (res.getD j []) := by
  intro rows
  induction rows with
  | nil =>
    intro res h
    simp only [rescale_rows] at h
    cases h
    simp
  | cons vec rest ih =>
    intro res h
    simp only [rescale_rows] at h
    cases hvec : rescale_vec r ms cs vec with
    | error e => rw [hvec] at h; cases h
    | ok rvec =>
      rw [hvec] at h
      cases hrest : rescale_rows r ms cs rest with
      | error e => rw [hrest] at h; cases h
      | ok rrest =>
        rw [hrest] at h
        cases h
        obtain ⟨hlen, hidx⟩ := ih hrest
        refine ⟨by simp [hlen], ?_⟩
        intro j hj
        cases j with
        | zero => simpa using hvec
        | succ j => simpa using hidx j (by simpa using hj)

lemma rescale_rows_exists {r : ℕ} {ms cs : List ℚ} :
    ∀ {rows : List (List ℚ)},
    (∀ row ∈ rows, ms.length ≤ row.length) → cs.length = ms.length →
    ∃ res, rescale_rows r ms cs rows = .ok res := by
  intro rows
  induction rows with
  | nil => intro _ _; exact ⟨[], rfl⟩
  | cons vec rest ih =>
    intro hall hc
    obtain ⟨rvec, hvec⟩ :=
      rescale_vec_exists (r := r) hc (hall vec (by simp))
    obtain ⟨rrest, hrest⟩ := ih (fun row hrow => hall row (by simp [hrow])) hc
    exact ⟨rvec :: rrest, by simp only [rescale_rows, hvec, hrest]⟩

lemma rescale_data_eq {r : ℕ} {data : List (List ℚ)} {maxs mins : List ℚ}
    (hne : data ≠ []) (hmax : get_max data = .ok maxs)
    (hmin : get_min data = .ok mins) :
    rescale_data r data = rescale_rows r mins (coefs r maxs mins) data := by
  match data with
  | [] => exact absurd rfl hne
  | d0 :: rest => simp only [rescale_data, hmax, hmin]

lemma rescale_data_elim {r : ℕ} {data : List (List ℚ)}
    {resc : List (List ℤ)} (h : rescale_data r data = .ok resc) :
    data ≠ [] ∧ ∃ maxs mins, get_max data = .ok maxs ∧
      get_min data = .ok mins ∧
      rescale_rows r mins (coefs r maxs mins) data = .ok resc := by
  match data with
  | [] => simp [rescale_data] at h
  | d0 :: rest =>
    simp only [rescale_data] at h
    cases hmax : get_max (d0 :: rest) with
    | error e => rw [hmax] at h; cases h
    | ok maxs =>
      rw [hmax] at h
      cases hmin : get_min (d0 :: rest) with
      | error e => rw [hmin] at h; cases h
      | ok mins => rw [hmin] at h; exact ⟨by simp, maxs, mins, rfl, rfl, h⟩

lemma rescale_data_shape {r : ℕ} {data : List (List ℚ)}
    {resc : List (List ℤ)} (h : rescale_data r data = .ok resc) :
    resc.length = data.length ∧
      ∀ row ∈ resc, row.length = (data.headD []).length := by
  obtain ⟨hne, maxs, mins, hmax, hmin, hrows⟩ := rescale_data_elim h
  obtain ⟨hlen, hidx⟩ := rescale_rows_ok hrows
  obtain ⟨hminlen, _⟩ := get_min_ok hmin
  refine ⟨hlen, ?_⟩
  intro row hrow
  obtain ⟨j, hj, hget⟩ := List.getElem_of_mem hrow
  have hj2 : j < data.length := hlen ▸ hj
  have := rescale_vec_ok (hidx j hj2)
  have hgetD : resc.getD j [] = row := by
    rw [List.getD_eq_getElem?_getD]
    simp [List.getElem?_eq_getElem hj, hget]
  rw [hgetD] at this
  rw [this.1, hminlen]

end SparseComputation

namespace SparseComputation

/-! ## Properties of the box-id encoding -/

lemma box_id_from_add {r : ℕ} : ∀ (cx cy : List ℤ) (t : ℕ),
    cx.length = cy.length →
    box_id_from r t cx +
        box_id_from r t (List.zipWith (fun u v => v - u) cx cy) =
      box_id_from r t cy := by
  intro cx
  induction cx with
  | nil =>
    intro cy t hlen
    match cy with
    | [] => simp [box_id_from]
    | c :: cy => simp at hlen
  | cons x cx ih =>
    intro cy t hlen
    match cy with
    | [] => simp at hlen
    | y :: cy =>
      have := ih cy (t + 1) (by simpa using hlen)
      simp only [List.zipWith_cons_cons, box_id_from]
      ring_nf
      ring_nf at this
      linarith [this]

lemma box_id_from_zero {r : ℕ} : ∀ (row : List ℤ) (t : ℕ),
    (∀ x ∈ row, x = 0) → box_id_from r t row = 0 := by
  intro row
  induction row with
  | nil => intro t _; rfl
  | cons a rest ih =>
    intro t hall
    have ha : a = 0 := hall a (by simp)
    have := ih (t + 1) (fun x hx => hall x (by simp [hx]))
    simp [box_id_from, ha, this]

lemma index_to_boxe_id_zero {r : ℕ} {row : List ℤ}
    (h : ∀ x ∈ row, x = 0) : index_to_boxe_id r row = 0 :=
  box_id_from_zero row 0 h

/-! ## Properties of the bucketing stage -/

lemma insert_box_mem {boxes : List (ℤ × List ℕ)} {bid : ℤ} {i : ℕ}
    {q : ℤ × List ℕ} (h : q ∈ insert_box boxes bid i) :
    (∃ p ∈ boxes, q.1 = p.1 ∧
        (q.2 = p.2 ∨ (q.1 = bid ∧ q.2 = p.2 ++ [i]))) ∨
      q = (bid, [i]) := by
  unfold insert_box at h
  split at h
  · obtain ⟨p, hp, hq⟩ := List.mem_map.mp h
    by_cases hc : p.1 = bid
    · rw [if_pos hc] at hq
      exact Or.inl ⟨p, hp, by rw [← hq], Or.inr ⟨by rw [← hq]; exact hc,
        by rw [← hq]⟩⟩
    · rw [if_neg hc] at hq
      exact Or.inl ⟨p, hp, by rw [hq], Or.inl (by rw [hq])⟩
  · rcases List.mem_append.mp h with h | h
    · exact Or.inl ⟨q, h, rfl, Or.inl rfl⟩
    · simp at h
      exact Or.inr (by simp [h])

lemma insert_box_persist {boxes : List (ℤ × List ℕ)} {bid : ℤ} {i : ℕ}
    {p : ℤ × List ℕ} (hp : p ∈ boxes) :
    ∃ m, (p.1, m) ∈ insert_box boxes bid i ∧ p.2 ⊆ m := by
  unfold insert_box
  split
  · refine ⟨if p.1 = bid then p.2 ++ [i] else p.2, ?_, ?_⟩
    · refine List.mem_map.mpr ⟨p, hp, ?_⟩
      by_cases hc : p.1 = bid <;> simp [hc]
    · by_cases hc : p.1 = bid <;> simp [hc]
  · exact ⟨p.2, List.mem_append.mpr (Or.inl (by simpa using hp)),
      List.Subset.refl _⟩

lemma insert_box_new (boxes : List (ℤ × List ℕ)) (bid : ℤ) (i : ℕ) :
    ∃ m, (bid, m) ∈ insert_box boxes bid i ∧ i ∈ m := by
  unfold insert_box
  split
  · next hex =>
    obtain ⟨p, hp, hpbid⟩ := hex
    exact ⟨p.2 ++ [i], List.mem_map.mpr ⟨p, hp, by simp [hpbid]⟩, by simp⟩
  · exact ⟨[i], by simp, by simp⟩

lemma insert_box_keys_nodup {boxes : List (ℤ × List ℕ)} {bid : ℤ} {i : ℕ}
    (h : (boxes.map Prod.fst).Nodup) :
    ((insert_box boxes bid i).map Prod.fst).Nodup := by
  unfold insert_box
  split
  · next hex =>
    have hmap : (boxes.map
          (fun p => if p.1 = bid then (p.1, p.2 ++ [i]) else p)).map
            Prod.fst = boxes.map Prod.fst := by
      rw [List.map_map]
      refine List.map_congr_left ?_
      intro p _
      by_cases hc : p.1 = bid <;> simp [hc]
    rw [hmap]
    exact h
  · next hex =>
    rw [List.map_append]
    simp only [List.map_cons, List.map_nil]
    rw [List.nodup_append]
    refine ⟨h, List.nodup_singleton bid, ?_⟩
    intro x hx hx1
    simp at hx1
    subst hx1
    obtain ⟨p, hp, hpx⟩ := List.mem_map.mp hx
    exact hex ⟨p, hp, hpx⟩

lemma insert_box_sound {Q : ℕ → ℤ → Prop} {boxes : List (ℤ × List ℕ)}
    {bid : ℤ} {i : ℕ} (hacc : ∀ p ∈ boxes, ∀ j ∈ p.2, Q j p.1)
    (hnew : Q i bid) :
    ∀ p ∈ insert_box boxes bid i, ∀ j ∈ p.2, Q j p.1 := by
  intro p hp j hj
  rcases insert_box_mem hp with ⟨p0, hp0, hfst, hsnd | ⟨hkey, hsnd⟩⟩ | heq
  · exact hfst ▸ hacc p0 hp0 j (hsnd ▸ hj)
  · rw [hsnd] at hj
    rcases List.mem_append.mp hj with hj | hj
    · exact hfst ▸ hacc p0 hp0 j hj
    · simp at hj
      subst hj
      exact hkey ▸ hnew
  · rw [heq] at hj ⊢
    simp at hj
    subst hj
    exact hnew

end SparseComputation

namespace SparseComputation

lemma get_boxes_aux_persist {r : ℕ} :
    ∀ {rows : List (List ℤ)} {i : ℕ} {acc res : List (ℤ × List ℕ)},
    get_boxes_aux r i acc rows = .ok res →
    ∀ p ∈ acc, ∃ m, (p.1, m) ∈ res ∧ p.2 ⊆ m := by
  intro rows
  induction rows with
  | nil =>
    intro i acc res h p hp
    simp only [get_boxes_aux] at h
    cases h
    exact ⟨p.2, by simpa using hp, List.Subset.refl _⟩
  | cons row rest ih =>
    intro i acc res h p hp
    match row with
    | [] => simp [get_boxes_aux] at h
    | a :: row =>
      simp only [get_boxes_aux] at h
      obtain ⟨m1, hm1, hsub1⟩ :=
        @insert_box_persist acc (index_to_boxe_id r (a :: row)) i p hp
      obtain ⟨m2, hm2, hsub2⟩ := ih h (p.1, m1) hm1
      exact ⟨m2, hm2, List.Subset.trans hsub1 hsub2⟩

lemma get_boxes_aux_keys {r : ℕ} :
    ∀ {rows : List (List ℤ)} {i : ℕ} {acc res : List (ℤ × List ℕ)},
    get_boxes_aux r i acc rows = .ok res →
    (acc.map Prod.fst).Nodup → (res.map Prod.fst).Nodup := by
  intro rows
  induction rows with
  | nil =>
    intro i acc res h hacc
    simp only [get_boxes_aux] at h
    cases h
    exact hacc
  | cons row rest ih =>
    intro i acc res h hacc
    match row with
    | [] => simp [get_boxes_aux] at h
    | a :: row =>
      simp only [get_boxes_aux] at h
      exact ih h (insert_box_keys_nodup hacc)

lemma get_boxes_aux_sound {r : ℕ} (Q : ℕ → ℤ → Prop) :
    ∀ {rows : List (List ℤ)} {i : ℕ} {acc res : List (ℤ × List ℕ)},
    get_boxes_aux r i acc rows = .ok res →
    (∀ p ∈ acc, ∀ j ∈ p.2, Q j p.1) →
    (∀ t, t < rows.length → Q (i + t) (index_to_boxe_id r (rows.getD t []))) →
    ∀ p ∈ res, ∀ j ∈ p.2, Q j p.1 := by
  intro rows
  induction rows with
  | nil =>
    intro i acc res h hacc _
    simp only [get_boxes_aux] at h
    cases h
    exact hacc
  | cons row rest ih =>
    intro i acc res h hacc hrows
    match row with
    | [] => simp [get_boxes_aux] at h
    | a :: row =>
      simp only [get_boxes_aux] at h
      refine ih h (insert_box_sound hacc ?_) ?_
      · have := hrows 0 (by simp)
        simpa using this
      · intro t ht
        have := hrows (t + 1) (by simpa using ht)
        have harith : i + (t + 1) = i + 1 + t := by omega
        rw [harith] at this
        simpa using this

lemma get_boxes_aux_mem {r : ℕ} :
    ∀ {rows : List (List ℤ)} {i : ℕ} {acc res : List (ℤ × List ℕ)},
    get_boxes_aux r i acc rows = .ok res →
    ∀ t, t < rows.length →
      ∃ m, (index_to_boxe_id r (rows.getD t []), m) ∈ res ∧ (i + t) ∈ m := by
  intro rows
  induction rows with
  | nil =>
    intro i acc res h t ht
    simp at ht
  | cons row rest ih =>
    intro i acc res h t ht
    match row with
    | [] => simp [get_boxes_aux] at h
    | a :: row =>
      simp only [get_boxes_aux] at h
      cases t with
      | zero =>
        obtain ⟨m0, hm0, hi0⟩ :=
          insert_box_new acc (index_to_boxe_id r (a :: row)) i
        obtain ⟨m, hm, hsub⟩ := get_boxes_aux_persist h _ hm0
        exact ⟨m, by simpa using hm, by simpa using hsub hi0⟩
      | succ t =>
        obtain ⟨m, hm, hmem⟩ := ih h t (by simpa using ht)
        have harith : i + (t + 1) = i + 1 + t := by omega
        exact ⟨m, by simpa using hm, by rw [harith]; exact hmem⟩

lemma get_boxes_sound {r : ℕ} {d : List (List ℤ)}
    {boxes : List (ℤ × List ℕ)} (h : get_boxes r d = .ok boxes) :
    ∀ p ∈ boxes, ∀ j ∈ p.2,
      j < d.length ∧ index_to_boxe_id r (d.getD j []) = p.1 := by
  match d with
  | [] => simp [get_boxes] at h
  | row0 :: rest =>
    simp only [get_boxes] at h
    refine get_boxes_aux_sound
      (fun j bid => j < (row0 :: rest).length ∧
        index_to_boxe_id r ((row0 :: rest).getD j []) = bid) h
      (by simp) ?_
    intro t ht
    exact ⟨by simpa using ht, by rw [Nat.zero_add]⟩

lemma get_boxes_mem {r : ℕ} {d : List (List ℤ)}
    {boxes : List (ℤ × List ℕ)} (h : get_boxes r d = .ok boxes) :
    ∀ t, t < d.length →
      ∃ m, (index_to_boxe_id r (d.getD t []), m) ∈ boxes ∧ t ∈ m := by
  match d with
  | [] => simp [get_boxes] at h
  | row0 :: rest =>
    simp only [get_boxes] at h
    intro t ht
    obtain ⟨m, hm, hmem⟩ := get_boxes_aux_mem h t ht
    exact ⟨m, hm, by simpa using hmem⟩

lemma get_boxes_keys {r : ℕ} {d : List (List ℤ)}
    {boxes : List (ℤ × List ℕ)} (h : get_boxes r d = .ok boxes) :
    (boxes.map Prod.fst).Nodup := by
  match d with
  | [] => simp [get_boxes] at h
  | row0 :: rest =>
    simp only [get_boxes] at h
    exact get_boxes_aux_keys h (by simp)

/-! ## Properties of the box lookup -/

lemma lookup_box_mem {boxes : List (ℤ × List ℕ)} {bid : ℤ} {m : List ℕ}
    (h : lookup_box boxes bid = some m) : (bid, m) ∈ boxes := by
  unfold lookup_box at h
  cases hfind : boxes.find? (fun p => decide (p.1 = bid)) with
  | none => rw [hfind] at h; cases h
  | some p =>
    rw [hfind] at h
    cases h
    have hp : p ∈ boxes := List.mem_of_find?_eq_some hfind
    have hpred := List.find?_some hfind
    have : p.1 = bid := of_decide_eq_true hpred
    rw [← this]
    simpa using hp

lemma lookup_box_eq_some {boxes : List (ℤ × List ℕ)} {bid : ℤ}
    {m : List ℕ} (hnodup : (boxes.map Prod.fst).Nodup)
    (h : (bid, m) ∈ boxes) : lookup_box boxes bid = some m := by
  induction boxes with
  | nil => simp at h
  | cons q rest ih =>
    rw [List.map_cons] at hnodup
    obtain ⟨hhead, htail⟩ := List.nodup_cons.mp hnodup
    rcases List.mem_cons.mp h with hq | hq
    · unfold lookup_box
      rw [List.find?_cons_of_pos _ (by simp [← hq])]
      rw [← hq]
    · have hq1 : q.1 ≠ bid := by
        intro hc
        exact hhead (hc ▸ List.mem_map.mpr ⟨(bid, m), hq, rfl⟩)
      unfold lookup_box
      rw [List.find?_cons_of_neg _ (by simp [hq1])]
      have := ih htail hq
      unfold lookup_box at this
      exact this

end SparseComputation

namespace SparseComputation

/-! ## Properties of the offset enumeration -/

lemma mem_increments_iff : ∀ (n : ℕ) (l : List ℤ),
    l ∈ increments n ↔
      l.length = n ∧ ∀ x ∈ l, x = -1 ∨ x = 0 ∨ x = 1 := by
  intro n
  induction n with
  | zero =>
    intro l
    constructor
    · intro h
      simp [increments] at h
      simp [h]
    · intro ⟨hlen, _⟩
      rw [List.length_eq_zero] at hlen
      simp [increments, hlen]
  | succ n ih =>
    intro l
    constructor
    · intro h
      simp only [increments, List.mem_append, List.mem_map] at h
      rcases h with (⟨t, ht, hl⟩ | ⟨t, ht, hl⟩) | ⟨t, ht, hl⟩ <;>
        subst hl <;>
        obtain ⟨hlen, hall⟩ := (ih t).mp ht <;>
        refine ⟨by simp [hlen], ?_⟩ <;>
        intro x hx <;>
        rcases List.mem_cons.mp hx with hx | hx <;>
        simp [hx, hall x]
    · intro ⟨hlen, hall⟩
      match l with
      | [] => simp at hlen
      | x :: l =>
        have hmem : l ∈ increments n :=
          (ih l).mpr ⟨by simpa using hlen, fun y hy => hall y (by simp [hy])⟩
        rcases hall x (by simp) with hx | hx | hx <;>
          subst hx <;>
          simp only [increments, List.mem_append, List.mem_map]
        · exact Or.inl (Or.inl ⟨l, hmem, rfl⟩)
        · exact Or.inl (Or.inr ⟨l, hmem, rfl⟩)
        · exact Or.inr ⟨l, hmem, rfl⟩

lemma replicate_zero_mem_increments (n : ℕ) :
    List.replicate n (0 : ℤ) ∈ increments n := by
  rw [mem_increments_iff]
  refine ⟨by simp, ?_⟩
  intro x hx
  rw [List.eq_of_mem_replicate hx]
  simp

/-! ## Generic lemmas about the pair-accumulating folds -/

lemma foldl_preserve {α : Type} {P : List (ℕ × ℕ) → Prop}
    {step : List (ℕ × ℕ) → α → List (ℕ × ℕ)}
    (hstep : ∀ ps x, P ps → P (step ps x)) :
    ∀ (l : List α) (ps : List (ℕ × ℕ)), P ps → P (l.foldl step ps)
  | [], _, hps => hps
  | x :: l, ps, hps => foldl_preserve hstep l (step ps x) (hstep ps x hps)

lemma foldl_mem_preserve {α : Type}
    {step : List (ℕ × ℕ) → α → List (ℕ × ℕ)}
    (hstep : ∀ ps x p, p ∈ ps → p ∈ step ps x) :
    ∀ (l : List α) (ps : List (ℕ × ℕ)) (p : ℕ × ℕ),
      p ∈ ps → p ∈ l.foldl step ps := by
  intro l
  induction l with
  | nil => intro ps p hp; exact hp
  | cons x l ih =>
    intro ps p hp
    exact ih (step ps x) p (hstep ps x p hp)

lemma foldl_mem_add {α : Type}
    {step : List (ℕ × ℕ) → α → List (ℕ × ℕ)}
    (hstep : ∀ ps x p, p ∈ ps → p ∈ step ps x)
    {x : α} {p : ℕ × ℕ} (hadd : ∀ ps, p ∈ step ps x) :
    ∀ (l : List α), x ∈ l → ∀ (ps : List (ℕ × ℕ)), p ∈ l.foldl step ps := by
  intro l
  induction l with
  | nil => intro hx; simp at hx
  | cons y l ih =>
    intro hx ps
    rcases List.mem_cons.mp hx with hx | hx
    · subst hx
      exact foldl_mem_preserve hstep l (step ps x) p (hadd ps)
    · exact ih hx (step ps y)

lemma foldl_mem_sound {α : Type} {R : α → ℕ × ℕ → Prop}
    {step : List (ℕ × ℕ) → α → List (ℕ × ℕ)}
    (hstep : ∀ ps x p, p ∈ step ps x → p ∈ ps ∨ R x p) :
    ∀ (l : List α) (ps : List (ℕ × ℕ)) (p : ℕ × ℕ),
      p ∈ l.foldl step ps → p ∈ ps ∨ ∃ x ∈ l, R x p := by
  intro l
  induction l with
  | nil => intro ps p hp; exact Or.inl hp
  | cons x l ih =>
    intro ps p hp
    rcases ih (step ps x) p hp with hp | ⟨y, hy, hr⟩
    · rcases hstep ps x p hp with hp | hr
      · exact Or.inl hp
      · exact Or.inr ⟨x, by simp, hr⟩
    · exact Or.inr ⟨y, by simp [hy], hr⟩

/-! ## Properties of pair emission -/

lemma pair_step_mem_preserve (ps : List (ℕ × ℕ)) (q p : ℕ × ℕ)
    (hp : p ∈ ps) : p ∈ pair_step ps q := by
  unfold pair_step
  split <;> simp [hp]

lemma pair_step_mem_self (ps : List (ℕ × ℕ)) {p : ℕ × ℕ}
    (hlt : p.1 < p.2) : p ∈ pair_step ps p := by
  unfold pair_step
  split
  · simp
  · next hcond =>
    rcases not_and_or.mp hcond with hc | hc
    · exact absurd hlt hc
    · simpa using not_not.mp hc

lemma pair_step_mem_sound {ps : List (ℕ × ℕ)} {q p : ℕ × ℕ}
    (h : p ∈ pair_step ps q) : p ∈ ps ∨ p = q := by
  unfold pair_step at h
  split at h
  · rcases List.mem_append.mp h with h | h
    · exact Or.inl h
    · exact Or.inr (by simpa using h)
  · exact Or.inl h

lemma cart_prod_mem : ∀ {A B : List ℕ} {a b : ℕ},
    a ∈ A → b ∈ B → (a, b) ∈ cart_prod A B := by
  intro A
  induction A with
  | nil => intro B a b ha; simp at ha
  | cons x A ih =>
    intro B a b ha hb
    rcases List.mem_cons.mp ha with ha | ha
    · subst ha
      exact List.mem_append.mpr (Or.inl (List.mem_map.mpr ⟨b, hb, rfl⟩))
    · exact List.mem_append.mpr (Or.inr (ih ha hb))

lemma cart_prod_mem_sound : ∀ {A B : List ℕ} {p : ℕ × ℕ},
    p ∈ cart_prod A B → p.1 ∈ A ∧ p.2 ∈ B := by
  intro A
  induction A with
  | nil => intro B p hp; simp [cart_prod] at hp
  | cons x A ih =>
    intro B p hp
    rcases List.mem_append.mp hp with hp | hp
    · obtain ⟨b, hb, hpb⟩ := List.mem_map.mp hp
      rw [← hpb]
      exact ⟨by simp, by simpa using hb⟩
    · obtain ⟨h1, h2⟩ := ih hp
      exact ⟨by simp [h1], h2⟩

lemma offset_step_mem_preserve (r : ℕ) (boxes : List (ℤ × List ℕ))
    (box : ℤ × List ℕ) (ps : List (ℕ × ℕ)) (inc : List ℤ) (p : ℕ × ℕ)
    (hp : p ∈ ps) : p ∈ offset_step r boxes box ps inc := by
  unfold offset_step
  cases lookup_box boxes (box.1 + index_to_boxe_id r inc) with
  | none => exact hp
  | some other =>
    exact foldl_mem_preserve pair_step_mem_preserve _ ps p hp

lemma offset_step_mem_add {r : ℕ} {boxes : List (ℤ × List ℕ)}
    {box : ℤ × List ℕ} {inc : List ℤ} {other : List ℕ} {a b : ℕ}
    (hlook : lookup_box boxes (box.1 + index_to_boxe_id r inc) = some other)
    (ha : a ∈ box.2) (hb : b ∈ other) (hab : a < b) :
    ∀ ps, (a, b) ∈ offset_step r boxes box ps inc := by
  intro ps
  unfold offset_step
  rw [hlook]
  exact foldl_mem_add pair_step_mem_preserve
    (fun ps0 => pair_step_mem_self ps0 hab) _ (cart_prod_mem ha hb) ps

lemma offset_step_mem_sound {r : ℕ} {boxes : List (ℤ × List ℕ)}
    {box : ℤ × List ℕ} {ps : List (ℕ × ℕ)} {inc : List ℤ} {p : ℕ × ℕ}
    (h : p ∈ offset_step r boxes box ps inc) :
    p ∈ ps ∨ ∃ other,
      lookup_box boxes (box.1 + index_to_boxe_id r inc) = some other ∧
        p.1 ∈ box.2 ∧ p.2 ∈ other := by
  unfold offset_step at h
  cases hlook : lookup_box boxes (box.1 + index_to_boxe_id r inc) with
  | none => rw [hlook] at h; exact Or.inl h
  | some other =>
    rw [hlook] at h
    rcases foldl_mem_sound (R := fun q p => p = q)
        (fun ps0 q p hp => pair_step_mem_sound hp) _ ps p h with
      hp | ⟨q, hq, hr⟩
    · exact Or.inl hp
    · subst hr
      obtain ⟨h1, h2⟩ := cart_prod_mem_sound hq
      exact Or.inr ⟨other, rfl, h1, h2⟩

end SparseComputation

namespace SparseComputation

lemma process_box_mem_preserve (r n : ℕ) (boxes : List (ℤ × List ℕ))
    (box : ℤ × List ℕ) (ps : List (ℕ × ℕ)) (p : ℕ × ℕ) (hp : p ∈ ps) :
    p ∈ process_box r n boxes ps box :=
  foldl_mem_preserve (fun ps0 inc p0 hp0 =>
    offset_step_mem_preserve r boxes box ps0 inc p0 hp0) _ ps p hp

lemma process_box_mem_add {r n : ℕ} {boxes : List (ℤ × List ℕ)}
    {box : ℤ × List ℕ} {inc : List ℤ} {other : List ℕ} {a b : ℕ}
    (hinc : inc ∈ increments n)
    (hlook : lookup_box boxes (box.1 + index_to_boxe_id r inc) = some other)
    (ha : a ∈ box.2) (hb : b ∈ other) (hab : a < b) :
    ∀ ps, (a, b) ∈ process_box r n boxes ps box := by
  intro ps
  exact foldl_mem_add
    (fun ps0 inc0 p0 hp0 =>
      offset_step_mem_preserve r boxes box ps0 inc0 p0 hp0)
    (offset_step_mem_add hlook ha hb hab) _ hinc ps

lemma process_box_mem_sound {r n : ℕ} {boxes : List (ℤ × List ℕ)}
    {box : ℤ × List ℕ} {ps : List (ℕ × ℕ)} {p : ℕ × ℕ}
    (h : p ∈ process_box r n boxes ps box) :
    p ∈ ps ∨ ∃ inc ∈ increments n, ∃ other,
      lookup_box boxes (box.1 + index_to_boxe_id r inc) = some other ∧
        p.1 ∈ box.2 ∧ p.2 ∈ other := by
  rcases foldl_mem_sound
      (R := fun inc p0 => ∃ other,
        lookup_box boxes (box.1 + index_to_boxe_id r inc) = some other ∧
          p0.1 ∈ box.2 ∧ p0.2 ∈ other)
      (fun ps0 inc p0 hp0 => offset_step_mem_sound hp0) _ ps p h with
    hp | ⟨inc, hinc, hr⟩
  · exact Or.inl hp
  · exact Or.inr ⟨inc, hinc, hr⟩

lemma emit_pairs_mem_add {r n : ℕ} {boxes : List (ℤ × List ℕ)}
    {box : ℤ × List ℕ} {inc : List ℤ} {other : List ℕ} {a b : ℕ}
    (hbox : box ∈ boxes) (hinc : inc ∈ increments n)
    (hlook : lookup_box boxes (box.1 + index_to_boxe_id r inc) = some other)
    (ha : a ∈ box.2) (hb : b ∈ other) (hab : a < b) :
    (a, b) ∈ emit_pairs r n boxes := by
  unfold emit_pairs
  exact foldl_mem_add
    (fun ps0 box0 p0 hp0 =>
      process_box_mem_preserve r n boxes box0 ps0 p0 hp0)
    (process_box_mem_add hinc hlook ha hb hab) _ hbox []

lemma emit_pairs_mem_sound {r n : ℕ} {boxes : List (ℤ × List ℕ)}
    {p : ℕ × ℕ} (h : p ∈ emit_pairs r n boxes) :
    ∃ box ∈ boxes, ∃ inc ∈ increments n, ∃ other,
      lookup_box boxes (box.1 + index_to_boxe_id r inc) = some other ∧
        p.1 ∈ box.2 ∧ p.2 ∈ other := by
  unfold emit_pairs at h
  rcases foldl_mem_sound
      (R := fun box0 p0 => ∃ inc ∈ increments n, ∃ other,
        lookup_box boxes (box0.1 + index_to_boxe_id r inc) = some other ∧
          p0.1 ∈ box0.2 ∧ p0.2 ∈ other)
      (fun ps0 box0 p0 hp0 => process_box_mem_sound hp0) _ [] p h with
    hp | ⟨box, hbox, hr⟩
  · simp at hp
  · exact ⟨box, hbox, hr⟩

/-! ## The ordered-and-deduplicated invariant of the pair list -/

lemma pair_step_invariant {ps : List (ℕ × ℕ)} {q : ℕ × ℕ}
    (h : (∀ p ∈ ps, p.1 < p.2) ∧ ps.Nodup) :
    (∀ p ∈ pair_step ps q, p.1 < p.2) ∧ (pair_step ps q).Nodup := by
  obtain ⟨hord, hnodup⟩ := h
  unfold pair_step
  split
  · next hcond =>
    constructor
    · intro p hp
      rcases List.mem_append.mp hp with hp | hp
      · exact hord p hp
      · simp at hp
        rw [hp]
        exact hcond.1
    · rw [List.nodup_append]
      exact ⟨hnodup, List.nodup_singleton q,
        fun x hx hq => by simp at hq; subst hq; exact hcond.2 hx⟩
  · exact ⟨hord, hnodup⟩

lemma emit_pairs_invariant (r n : ℕ) (boxes : List (ℤ × List ℕ)) :
    (∀ p ∈ emit_pairs r n boxes, p.1 < p.2) ∧
      (emit_pairs r n boxes).Nodup := by
  unfold emit_pairs
  refine foldl_preserve
    (P := fun ps => (∀ p ∈ ps, p.1 < p.2) ∧ ps.Nodup) ?_ boxes [] ?_
  · intro ps box hps
    unfold process_box
    refine foldl_preserve
      (P := fun ps => (∀ p ∈ ps, p.1 < p.2) ∧ ps.Nodup) ?_ _ ps hps
    intro ps0 inc hps0
    unfold offset_step
    cases lookup_box boxes (box.1 + index_to_boxe_id r inc) with
    | none => exact hps0
    | some other =>
      exact foldl_preserve
        (P := fun ps => (∀ p ∈ ps, p.1 < p.2) ∧ ps.Nodup)
        (fun ps1 q hps1 => pair_step_invariant hps1) _ ps0 hps0
  · exact ⟨by simp, List.nodup_nil⟩

/-! ## Unfolding `_get_pairs` -/

lemma get_pairs_elim {r : ℕ} {data : List (List ℚ)} {ps : List (ℕ × ℕ)}
    (h : get_pairs r data = .ok ps) :
    ∃ resc boxes, data ≠ [] ∧ (data.headD []).length ≤ 3 ∧
      rescale_data r data = .ok resc ∧ get_boxes r resc = .ok boxes ∧
      ps = emit_pairs r (data.headD []).length boxes := by
  match data with
  | [] => simp [get_pairs] at h
  | d0 :: rest =>
    simp only [get_pairs] at h
    split at h
    · cases h
    · next hk =>
      cases hresc : rescale_data r (d0 :: rest) with
      | error e =>
        simp only [hresc] at h
        exact Except.noConfusion h
      | ok resc =>
        simp only [hresc] at h
        cases hboxes : get_boxes r resc with
        | error e =>
          simp only [hboxes] at h
          exact Except.noConfusion h
        | ok boxes =>
          simp only [hboxes] at h
          cases h
          exact ⟨resc, boxes, by simp, by simpa using Nat.le_of_not_lt hk,
            rfl, hboxes, rfl⟩

end SparseComputation

namespace SparseComputation

/-! ## Adjacency: offset vectors between neighboring boxes -/

lemma zipWith_sub_entries {cx cy : List ℤ}
    (hadj : List.Forall₂ (fun u v => v - u = -1 ∨ v - u = 0 ∨ v - u = 1)
      cx cy) :
    ∀ z ∈ List.zipWith (fun u v => v - u) cx cy,
      z = -1 ∨ z = 0 ∨ z = 1 := by
  induction hadj with
  | nil => simp
  | cons h hrest ih =>
    intro z hz
    rcases List.mem_cons.mp (by simpa using hz) with hz | hz
    · subst hz
      exact h
    · exact ih z hz

lemma zipWith_sub_mem_increments {cx cy : List ℤ} {n : ℕ}
    (hadj : List.Forall₂ (fun u v => v - u = -1 ∨ v - u = 0 ∨ v - u = 1)
      cx cy) (hlen : cx.length = n) :
    List.zipWith (fun u v => v - u) cx cy ∈ increments n := by
  rw [mem_increments_iff]
  refine ⟨?_, zipWith_sub_entries hadj⟩
  rw [List.length_zipWith, ← hadj.length_eq, min_self, hlen]

/-- If rows `x` and `y` of the rescaled matrix land in boxes whose per-axis
coordinates differ by an offset in `{-1, 0, 1}` on every axis, then when the
neighbor loop processes the box of `x` with that offset, the incremented id
is exactly the id of the box of `y`, so the pair `(x, y)` is emitted. -/
lemma emit_pairs_adjacent {r n : ℕ} {resc : List (List ℤ)}
    {boxes : List (ℤ × List ℕ)} {x y : ℕ}
    (hboxes : get_boxes r resc = .ok boxes)
    (hx : x < resc.length) (hy : y < resc.length) (hxy : x < y)
    (hlen : (resc.getD x []).length = n)
    (hadj : List.Forall₂ (fun u v => v - u = -1 ∨ v - u = 0 ∨ v - u = 1)
      (resc.getD x []) (resc.getD y [])) :
    (x, y) ∈ emit_pairs r n boxes := by
  obtain ⟨mx, hmx, hxmem⟩ := get_boxes_mem hboxes x hx
  obtain ⟨my, hmy, hymem⟩ := get_boxes_mem hboxes y hy
  have hnodup := get_boxes_keys hboxes
  have hlook := lookup_box_eq_some hnodup hmy
  have hdelta :
      index_to_boxe_id r (resc.getD x []) +
          index_to_boxe_id r
            (List.zipWith (fun u v => v - u) (resc.getD x [])
              (resc.getD y [])) =
        index_to_boxe_id r (resc.getD y []) :=
    box_id_from_add _ _ 0 hadj.length_eq
  refine @emit_pairs_mem_add r n boxes
    (index_to_boxe_id r (resc.getD x []), mx)
    (List.zipWith (fun u v => v - u) (resc.getD x []) (resc.getD y []))
    my x y hmx (zipWith_sub_mem_increments hadj hlen) ?_ hxmem hymem hxy
  rw [hdelta]
  exact hlook

/-- Conversely, every emitted pair arises from one box and one offset whose
mixed-radix increment carries the box id of the first row to the box id of
the second row. -/
lemma emit_pairs_sound_boxid {r n : ℕ} {resc : List (List ℤ)}
    {boxes : List (ℤ × List ℕ)} {p : ℕ × ℕ}
    (hboxes : get_boxes r resc = .ok boxes)
    (hp : p ∈ emit_pairs r n boxes) :
    p.1 < resc.length ∧ p.2 < resc.length ∧
      ∃ inc ∈ increments n,
        index_to_boxe_id r (resc.getD p.1 []) + index_to_boxe_id r inc =
          index_to_boxe_id r (resc.getD p.2 []) := by
  obtain ⟨box, hbox, inc, hinc, other, hlook, h1, h2⟩ :=
    emit_pairs_mem_sound hp
  have hs1 := get_boxes_sound hboxes box hbox p.1 h1
  have hother := lookup_box_mem hlook
  have hs2 := get_boxes_sound hboxes _ hother p.2 h2
  refine ⟨hs1.1, hs2.1, inc, hinc, ?_⟩
  rw [hs1.2]
  exact hs2.2.symm

end SparseComputation

namespace SparseComputation

/-! ## The entry-level characterization of the rescaled matrix -/

lemma py_int_of_nonneg {q : ℚ} (h : 0 ≤ q) : py_int q = ⌊q⌋ := if_pos h

lemma py_int_nonneg {q : ℚ} (h : 0 ≤ q) : 0 ≤ py_int q := by
  rw [py_int_of_nonneg h]
  exact Int.floor_nonneg.mpr h

lemma getD_mem {α : Type} {l : List α} {j : ℕ} (d : α) (hj : j < l.length) :
    l.getD j d ∈ l := by
  rw [List.getD_eq_getElem?_getD, List.getElem?_eq_getElem hj]
  exact List.getElem_mem hj

lemma rescale_entry {r : ℕ} {data : List (List ℚ)} {maxs mins : List ℚ}
    {resc : List (List ℤ)} {j i : ℕ}
    (hmax : get_max data = .ok maxs) (hmin : get_min data = .ok mins)
    (hresc : rescale_data r data = .ok resc)
    (hj : j < data.length) (hi : i < (data.headD []).length) :
    (resc.getD j []).getD i 0 =
        min (py_int (((data.getD j []).getD i 0 - mins.getD i 0) *
          (coefs r maxs mins).getD i 0)) ((r : ℤ) - 1) ∧
      0 ≤ ((data.getD j []).getD i 0 - mins.getD i 0) *
          (coefs r maxs mins).getD i 0 ∧
      mins.getD i 0 ≤ maxs.getD i 0 := by
  obtain ⟨hne, maxs0, mins0, hmax0, hmin0, hrows⟩ := rescale_data_elim hresc
  rw [hmax0] at hmax
  rw [hmin0] at hmin
  cases hmax
  cases hmin
  obtain ⟨hminlen, hminrows⟩ := get_min_ok hmin0
  obtain ⟨hmaxlen, hmaxrows⟩ := get_max_ok hmax0
  obtain ⟨hlen, hidx⟩ := rescale_rows_ok hrows
  have hrowmem : data.getD j [] ∈ data := getD_mem [] hj
  have hvm := hminrows (data.getD j []) hrowmem
  have hvM := hmaxrows (data.getD j []) hrowmem
  have hi_min : i < mins.length := hminlen ▸ hi
  have hi_max : i < maxs.length := hmaxlen ▸ hi
  have hentry :=
    (rescale_vec_ok (hidx j hj)).2 i hi_min
  have hcoef :
      0 ≤ (coefs r maxs mins).getD i 0 := by
    rw [coefs_getD maxs mins i hi_max hi_min]
    split
    · exact le_refl 0
    · next hc =>
      have hlt : mins.getD i 0 < maxs.getD i 0 := by
        rcases lt_or_eq_of_le
            (le_trans (hvm.2 i hi_min) (hvM.2 i hi_max)) with h | h
        · exact h
        · exact absurd (by rw [h]; ring) hc
      exact div_nonneg (by positivity) (by linarith)
  refine ⟨hentry, ?_, le_trans (hvm.2 i hi_min) (hvM.2 i hi_max)⟩
  exact mul_nonneg (sub_nonneg.mpr (hvm.2 i hi_min)) hcoef

end SparseComputation

namespace SparseComputation

/-! ## Concrete evaluations used by witnesses -/

lemma eval_rescale_01 : rescale_data 2 [[(0 : ℚ)], [1]] = .ok [[0], [1]] := by
  norm_num [rescale_data, get_max, get_max_loop, vec_max, get_min,
    get_min_loop, vec_min, coefs, rescale_rows, rescale_vec, py_int]

lemma eval_pairs_01 : get_pairs 2 [[(0 : ℚ)], [1]] = .ok [(0, 1)] := by
  norm_num [get_pairs, rescale_data, get_max, get_max_loop, vec_max,
    get_min, get_min_loop, vec_min, coefs, rescale_rows, rescale_vec,
    py_int, get_boxes, get_boxes_aux, insert_box, index_to_boxe_id,
    box_id_from, emit_pairs, process_box, offset_step, increments,
    lookup_box, cart_prod, pair_step, List.find?]

lemma eval_rescale_010 : rescale_data 4 [[(0 : ℚ)], [10]] = .ok [[0], [3]] := by
  norm_num [rescale_data, get_max, get_max_loop, vec_max, get_min,
    get_min_loop, vec_min, coefs, rescale_rows, rescale_vec, py_int]

lemma eval_pairs_010 : get_pairs 4 [[(0 : ℚ)], [10]] = .ok [] := by
  norm_num [get_pairs, rescale_data, get_max, get_max_loop, vec_max,
    get_min, get_min_loop, vec_min, coefs, rescale_rows, rescale_vec,
    py_int, get_boxes, get_boxes_aux, insert_box, index_to_boxe_id,
    box_id_from, emit_pairs, process_box, offset_step, increments,
    lookup_box, cart_prod, pair_step, List.find?]

lemma eval_rescale_r1 : rescale_data 1 [[(0 : ℚ)], [5]] = .ok [[0], [0]] := by
  norm_num [rescale_data, get_max, get_max_loop, vec_max, get_min,
    get_min_loop, vec_min, coefs, rescale_rows, rescale_vec, py_int]

lemma eval_pairs_r1 : get_pairs 1 [[(0 : ℚ)], [5]] = .ok [(0, 1)] := by
  norm_num [get_pairs, rescale_data, get_max, get_max_loop, vec_max,
    get_min, get_min_loop, vec_min, coefs, rescale_rows, rescale_vec,
    py_int, get_boxes, get_boxes_aux, insert_box, index_to_boxe_id,
    box_id_from, emit_pairs, process_box, offset_step, increments,
    lookup_box, cart_prod, pair_step, List.find?]

lemma eval_max_33 : get_max [[(3 : ℚ)], [3]] = .ok [3] := by
  norm_num [get_max, get_max_loop, vec_max]

lemma eval_min_33 : get_min [[(3 : ℚ)], [3]] = .ok [3] := by
  norm_num [get_min, get_min_loop, vec_min]

lemma eval_max_55 : get_max [[(5 : ℚ)], [5]] = .ok [5] := by
  norm_num [get_max, get_max_loop, vec_max]

lemma eval_rescale_55 : rescale_data 4 [[(5 : ℚ)], [5]] = .ok [[0], [0]] := by
  norm_num [rescale_data, get_max, get_max_loop, vec_max, get_min,
    get_min_loop, vec_min, coefs, rescale_rows, rescale_vec, py_int]

lemma eval_max_01 : get_max [[(0 : ℚ)], [1]] = .ok [1] := by
  norm_num [get_max, get_max_loop, vec_max]

lemma eval_min_01 : get_min [[(0 : ℚ)], [1]] = .ok [0] := by
  norm_num [get_min, get_min_loop, vec_min]

/-! ## The claims -/

/-- C5: with grid resolution 4 and the one-column reduced dataset
`[0, 1, 2, 3, 10]`, the rows rescale to bins `[0, 0, 0, 1, 3]` and
`_get_pairs` returns exactly the pairs
`(0,1), (0,2), (1,2), (0,3), (1,3), (2,3)`. -/
theorem C5_scenario_k1_res4 :
    rescale_data 4 [[(0 : ℚ)], [1], [2], [3], [10]] =
        .ok [[0], [0], [0], [1], [3]] ∧
      get_pairs 4 [[(0 : ℚ)], [1], [2], [3], [10]] =
        .ok [(0, 1), (0, 2), (1, 2), (0, 3), (1, 3), (2, 3)] := by
  constructor
  · norm_num [rescale_data, get_max, get_max_loop, vec_max, get_min,
      get_min_loop, vec_min, coefs, rescale_rows, rescale_vec, py_int]
  · norm_num [get_pairs, rescale_data, get_max, get_max_loop, vec_max,
      get_min, get_min_loop, vec_min, coefs, rescale_rows, rescale_vec,
      py_int, get_boxes, get_boxes_aux, insert_box, index_to_boxe_id,
      box_id_from, emit_pairs, process_box, offset_step, increments,
      lookup_box, cart_prod, pair_step, List.find?]

/-- C7: on a non-empty reduced dataset with more than 3 columns,
`_get_pairs` stops with a `ValueError` at the `len(data[0]) > 3` guard,
which in the source precedes the calls to `_rescale_data`, `_get_boxes`
and the pair loop. -/
theorem C7_width_guard (r : ℕ) (d : List ℚ) (u : List (List ℚ))
    (h : 3 < d.length) : get_pairs r (d :: u) = .error .valueError := by
  simp only [get_pairs, if_pos h]

/-- Witness for C7 at a concrete 4-column dataset. -/
theorem C7_width_guard_witness :
    3 < ([(0 : ℚ), 0, 0, 0] : List ℚ).length ∧
      get_pairs 25 [[(0 : ℚ), 0, 0, 0]] = .error .valueError :=
  ⟨by simp, C7_width_guard 25 [(0 : ℚ), 0, 0, 0] [] (by simp)⟩

/-- C8 (counterexample): on the empty dataset the scan does fail, but with
an `IndexError` (the out-of-bounds read `data[0]` in `np.copy(data[0])`),
not with the input-type error the claim asserts. -/
theorem C8_counterexample :
    get_min ([] : List (List ℚ)) = .error .indexError ∧
      get_max ([] : List (List ℚ)) = .error .indexError ∧
      get_min ([] : List (List ℚ)) ≠ .error .typeError ∧
      get_max ([] : List (List ℚ)) ≠ .error .typeError := by
  refine ⟨rfl, rfl, ?_, ?_⟩ <;> simp [get_min, get_max]

/-- C8 (amended): given an empty dataset, `_get_min`, `_get_max` and hence
`_get_pairs` fail with an index error (out-of-bounds access to row 0)
rather than returning a result. -/
theorem C8_empty_dataset_amended (r : ℕ) :
    get_min ([] : List (List ℚ)) = .error .indexError ∧
      get_max ([] : List (List ℚ)) = .error .indexError ∧
      get_pairs r ([] : List (List ℚ)) = .error .indexError :=
  ⟨rfl, rfl, rfl⟩

/-- C2: every pair returned by `_get_pairs` is strictly increasing, the
returned list has no duplicate entries, and no unordered pair appears in
both orientations; `get_similar_indices` returns such a list verbatim. -/
theorem C2_pairs_ordered_unique (r : ℕ) (data : List (List ℚ))
    (ps : List (ℕ × ℕ)) (h : get_pairs r data = .ok ps) :
    (∀ p ∈ ps, p.1 < p.2) ∧ ps.Nodup ∧ ∀ p ∈ ps, (p.2, p.1) ∉ ps := by
  obtain ⟨resc, boxes, _, _, _, _, hps⟩ := get_pairs_elim h
  subst hps
  obtain ⟨hord, hnodup⟩ :=
    emit_pairs_invariant r (data.headD []).length boxes
  refine ⟨hord, hnodup, ?_⟩
  intro p hp hc
  have h1 := hord p hp
  have h2 := hord (p.2, p.1) hc
  simp at h2
  omega

/-- Witness for C2 on a concrete two-row dataset. -/
theorem C2_pairs_ordered_unique_witness :
    (∀ p ∈ [((0 : ℕ), (1 : ℕ))], p.1 < p.2) ∧
      [((0 : ℕ), (1 : ℕ))].Nodup ∧
      ∀ p ∈ [((0 : ℕ), (1 : ℕ))], (p.2, p.1) ∉ [((0 : ℕ), (1 : ℕ))] :=
  C2_pairs_ordered_unique 2 [[(0 : ℚ)], [1]] [(0, 1)] eval_pairs_01

end SparseComputation

namespace SparseComputation

/-- C3: on an axis where all rows share one value (max = min), the scale
factor is 0 (the `ZeroDivisionError` branch), no error is raised — the
rescale succeeds — and every row gets bin 0 on that axis. -/
theorem C3_degenerate_axis (r : ℕ) (data : List (List ℚ))
    (maxs mins : List ℚ) (i : ℕ)
    (hr : 1 ≤ r) (hne : data ≠ [])
    (hrect : ∀ row ∈ data, row.length = (data.headD []).length)
    (hmax : get_max data = .ok maxs) (hmin : get_min data = .ok mins)
    (hi : i < mins.length) (hdeg : maxs.getD i 0 = mins.getD i 0) :
    (coefs r maxs mins).getD i 0 = 0 ∧
      ∃ resc, rescale_data r data = .ok resc ∧
        ∀ row ∈ resc, row.getD i 0 = 0 := by
  obtain ⟨hminlen, _⟩ := get_min_ok hmin
  obtain ⟨hmaxlen, _⟩ := get_max_ok hmax
  have hi_max : i < maxs.length := by rw [hmaxlen, ← hminlen]; exact hi
  have hcoef : (coefs r maxs mins).getD i 0 = 0 := by
    rw [coefs_getD maxs mins i hi_max hi, hdeg]
    simp
  obtain ⟨resc, hresc0⟩ :=
    @rescale_rows_exists r mins (coefs r maxs mins) data
      (fun row hrow => by rw [hminlen, ← hrect row hrow])
      (by rw [coefs_length, hmaxlen, hminlen]; simp)
  have hresc : rescale_data r data = .ok resc := by
    rw [rescale_data_eq hne hmax hmin]
    exact hresc0
  refine ⟨hcoef, resc, hresc, ?_⟩
  intro row hrow
  obtain ⟨j, hj, hget⟩ := List.getElem_of_mem hrow
  have hshape := rescale_data_shape hresc
  have hj2 : j < data.length := hshape.1 ▸ hj
  have hi2 : i < (data.headD []).length := hminlen ▸ hi
  have hentry := (rescale_entry hmax hmin hresc hj2 hi2).1
  have hgetD : resc.getD j [] = row := by
    rw [List.getD_eq_getElem?_getD]
    simp [List.getElem?_eq_getElem hj, hget]
  rw [hgetD] at hentry
  rw [hentry, hcoef, mul_zero]
  have h0 : py_int 0 = 0 := by simp [py_int]
  rw [h0]
  have hr1 : (0 : ℤ) ≤ (r : ℤ) - 1 := by
    have : (1 : ℤ) ≤ (r : ℤ) := by exact_mod_cast hr
    omega
  exact min_eq_left hr1

/-- Witness for C3 on the constant one-column dataset [[3],[3]]. -/
theorem C3_degenerate_axis_witness :
    (coefs 4 [3] [3]).getD 0 0 = 0 ∧
      ∃ resc, rescale_data 4 [[(3 : ℚ)], [3]] = .ok resc ∧
        ∀ row ∈ resc, row.getD 0 0 = 0 :=
  C3_degenerate_axis 4 [[(3 : ℚ)], [3]] [3] [3] 0 (by norm_num) (by simp)
    (by simp) eval_max_33 eval_min_33 (by simp) rfl

/-- C4 (amended): every rescaled entry equals
`floor((value − axis min) × scale)` clamped to `[0, resolution−1]`; no
entry ever equals `resolution`; and on a non-degenerate axis
(axis max > axis min) a value equal to the axis maximum is assigned bin
`resolution − 1`.  On a constant axis a value equal to the axis maximum is
instead assigned bin 0 (see the counterexample), which is the only change
forced on the claim. -/
theorem C4_boundary_clamp (r : ℕ) (data : List (List ℚ))
    (maxs mins : List ℚ) (resc : List (List ℤ)) (j i : ℕ)
    (hr : 1 ≤ r)
    (hmax : get_max data = .ok maxs) (hmin : get_min data = .ok mins)
    (hresc : rescale_data r data = .ok resc)
    (hj : j < data.length) (hi : i < (data.headD []).length) :
    (resc.getD j []).getD i 0 =
        max 0 (min ⌊((data.getD j []).getD i 0 - mins.getD i 0) *
          (coefs r maxs mins).getD i 0⌋ ((r : ℤ) - 1)) ∧
      (resc.getD j []).getD i 0 ≠ (r : ℤ) ∧
      (mins.getD i 0 < maxs.getD i 0 →
        (data.getD j []).getD i 0 = maxs.getD i 0 →
        (resc.getD j []).getD i 0 = (r : ℤ) - 1) := by
  obtain ⟨hf, hnn, hmm⟩ := rescale_entry hmax hmin hresc hj hi
  have hfloor : py_int (((data.getD j []).getD i 0 - mins.getD i 0) *
      (coefs r maxs mins).getD i 0) =
        ⌊((data.getD j []).getD i 0 - mins.getD i 0) *
          (coefs r maxs mins).getD i 0⌋ := py_int_of_nonneg hnn
  have hfl0 : (0 : ℤ) ≤ ⌊((data.getD j []).getD i 0 - mins.getD i 0) *
      (coefs r maxs mins).getD i 0⌋ := Int.floor_nonneg.mpr hnn
  have hr1 : (1 : ℤ) ≤ (r : ℤ) := by exact_mod_cast hr
  refine ⟨?_, ?_, ?_⟩
  · rw [hf, hfloor]
    rw [max_eq_right (le_min hfl0 (by omega))]
  · rw [hf, hfloor]
    have := min_le_right
      ⌊((data.getD j []).getD i 0 - mins.getD i 0) *
        (coefs r maxs mins).getD i 0⌋ ((r : ℤ) - 1)
    omega
  · intro hlt hv
    obtain ⟨hminlen, _⟩ := get_min_ok hmin
    obtain ⟨hmaxlen, _⟩ := get_max_ok hmax
    have hi_min : i < mins.length := hminlen ▸ hi
    have hi_max : i < maxs.length := hmaxlen ▸ hi
    have hsub : maxs.getD i 0 - mins.getD i 0 ≠ 0 := by
      intro hc
      have : maxs.getD i 0 = mins.getD i 0 := by linarith
      linarith
    have hcoef : (coefs r maxs mins).getD i 0 =
        (r : ℚ) / (maxs.getD i 0 - mins.getD i 0) := by
      rw [coefs_getD maxs mins i hi_max hi_min, if_neg hsub]
    rw [hf, hv, hcoef]
    have hprod : (maxs.getD i 0 - mins.getD i 0) *
        ((r : ℚ) / (maxs.getD i 0 - mins.getD i 0)) = (r : ℚ) := by
      rw [mul_comm]
      exact div_mul_cancel₀ _ hsub
    rw [hprod]
    have hfr : py_int ((r : ℕ) : ℚ) = (r : ℤ) := by
      rw [py_int_of_nonneg (by positivity)]
      exact_mod_cast Int.floor_natCast r
    rw [hfr]
    exact min_eq_right (by omega)

/-- C4 is false exactly as stated: with resolution 4 and the constant
one-column dataset [[5],[5]] the value 5 of row 0 equals the axis maximum
5, yet its bin is 0 and not resolution − 1 = 3. -/
theorem C4_counterexample :
    get_max [[(5 : ℚ)], [5]] = .ok [5] ∧
      rescale_data 4 [[(5 : ℚ)], [5]] = .ok [[0], [0]] ∧
      (0 : ℤ) ≠ 4 - 1 :=
  ⟨eval_max_55, eval_rescale_55, by decide⟩

/-- Witness for C4 on the dataset [[0],[1]] with resolution 2, row 1,
axis 0 (a non-degenerate axis whose maximum is attained by row 1). -/
theorem C4_boundary_clamp_witness :
    (([[(0 : ℤ)], [1]].getD 1 []).getD 0 0 =
        max 0 (min ⌊(([[(0 : ℚ)], [1]].getD 1 []).getD 0 0 -
          [(0 : ℚ)].getD 0 0) * (coefs 2 [1] [0]).getD 0 0⌋
          ((2 : ℤ) - 1)) ∧
      ([[(0 : ℤ)], [1]].getD 1 []).getD 0 0 ≠ (2 : ℤ) ∧
      ([(0 : ℚ)].getD 0 0 < [(1 : ℚ)].getD 0 0 →
        ([[(0 : ℚ)], [1]].getD 1 []).getD 0 0 = [(1 : ℚ)].getD 0 0 →
        ([[(0 : ℤ)], [1]].getD 1 []).getD 0 0 = (2 : ℤ) - 1)) :=
  C4_boundary_clamp 2 [[(0 : ℚ)], [1]] [1] [0] [[0], [1]] 1 0
    (by norm_num) eval_max_01 eval_min_01 eval_rescale_01
    (by simp) (by simp)

end SparseComputation

namespace SparseComputation

lemma forall₂_swap {c1 c2 : List ℤ}
    (h : List.Forall₂ (fun u v => (u - v).natAbs ≤ 1) c1 c2) :
    List.Forall₂ (fun u v => v - u = -1 ∨ v - u = 0 ∨ v - u = 1) c2 c1 := by
  induction h with
  | nil => exact List.Forall₂.nil
  | cons hx hrest ih => exact List.Forall₂.cons (by omega) ih

lemma forall₂_zeros {c1 c2 : List ℤ} (h1 : ∀ x ∈ c1, x = 0)
    (h2 : ∀ x ∈ c2, x = 0) (hlen : c1.length = c2.length) :
    List.Forall₂ (fun u v => v - u = -1 ∨ v - u = 0 ∨ v - u = 1) c1 c2 := by
  induction c1 generalizing c2 with
  | nil =>
    match c2 with
    | [] => exact List.Forall₂.nil
    | y :: c2 => simp at hlen
  | cons x c1 ih =>
    match c2 with
    | [] => simp at hlen
    | y :: c2 =>
      have hx : x = 0 := h1 x (by simp)
      have hy : y = 0 := h2 y (by simp)
      refine List.Forall₂.cons (by rw [hx, hy]; simp) ?_
      exact ih (fun z hz => h1 z (by simp [hz]))
        (fun z hz => h2 z (by simp [hz])) (by simpa using hlen)

/-- C1: on a non-empty reduced dataset with at most 3 columns, two distinct
rows whose rescaled coordinates differ by at most 1 on every axis (the same
box or an adjacent box) always produce the pair (min, max) in the output of
`_get_pairs`. -/
theorem C1_neighbor_closure (r : ℕ) (data : List (List ℚ))
    (resc : List (List ℤ)) (ps : List (ℕ × ℕ)) (a b : ℕ)
    (hps : get_pairs r data = .ok ps)
    (hresc : rescale_data r data = .ok resc)
    (ha : a < data.length) (hb : b < data.length) (hab : a ≠ b)
    (hadj : List.Forall₂ (fun u v => (u - v).natAbs ≤ 1)
      (resc.getD a []) (resc.getD b [])) :
    (min a b, max a b) ∈ ps := by
  obtain ⟨resc0, boxes, hne, hk, hresc0, hboxes, hps0⟩ := get_pairs_elim hps
  rw [hresc0] at hresc
  cases hresc
  subst hps0
  obtain ⟨hlen, hrows⟩ := rescale_data_shape hresc0
  have ha2 : a < resc.length := hlen ▸ ha
  have hb2 : b < resc.length := hlen ▸ hb
  have hlena : (resc.getD a []).length = (data.headD []).length :=
    hrows (resc.getD a []) (getD_mem [] ha2)
  have hlenb : (resc.getD b []).length = (data.headD []).length :=
    hrows (resc.getD b []) (getD_mem [] hb2)
  rcases Nat.lt_trichotomy a b with hlt | heq | hgt
  · rw [min_eq_left (le_of_lt hlt), max_eq_right (le_of_lt hlt)]
    refine emit_pairs_adjacent hboxes ha2 hb2 hlt hlena ?_
    exact hadj.imp (fun h => by omega)
  · exact absurd heq hab
  · rw [min_eq_right (le_of_lt hgt), max_eq_left (le_of_lt hgt)]
    refine emit_pairs_adjacent hboxes hb2 ha2 hgt hlenb ?_
    exact forall₂_swap hadj

/-- Witness for C1 on the dataset [[0],[1]] with resolution 2, whose two
rows land in adjacent boxes 0 and 1. -/
theorem C1_neighbor_closure_witness :
    (min 0 1, max 0 1) ∈ [((0 : ℕ), (1 : ℕ))] :=
  C1_neighbor_closure 2 [[(0 : ℚ)], [1]] [[0], [1]] [(0, 1)] 0 1
    eval_pairs_01 eval_rescale_01 (by simp) (by simp) (by simp)
    (List.Forall₂.cons (by decide) List.Forall₂.nil)

/-- C6: if two rows land in boxes that differ by more than 1 on some axis
and no offset vector in the 3^k neighborhood carries either box id to the
other by the mixed-radix arithmetic (no aliasing collision), then the pair
is absent from the output.  `increments k` enumerates exactly the vectors
of length k over `{-1, 0, 1}` (`mem_increments_iff`). -/
theorem C6_nonadjacency_exclusion (r : ℕ) (data : List (List ℚ))
    (resc : List (List ℤ)) (ps : List (ℕ × ℕ)) (a b : ℕ)
    (hps : get_pairs r data = .ok ps)
    (hresc : rescale_data r data = .ok resc)
    (hfar : ∃ i, i < (resc.getD a []).length ∧
      1 < ((resc.getD a []).getD i 0 - (resc.getD b []).getD i 0).natAbs)
    (halias : ∀ inc ∈ increments (data.headD []).length,
      index_to_boxe_id r (resc.getD a []) + index_to_boxe_id r inc ≠
          index_to_boxe_id r (resc.getD b []) ∧
        index_to_boxe_id r (resc.getD b []) + index_to_boxe_id r inc ≠
          index_to_boxe_id r (resc.getD a [])) :
    (a, b) ∉ ps := by
  intro hp
  obtain ⟨resc0, boxes, hne, hk, hresc0, hboxes, hps0⟩ := get_pairs_elim hps
  rw [hresc0] at hresc
  cases hresc
  subst hps0
  obtain ⟨_, _, inc, hinc, hsum⟩ := emit_pairs_sound_boxid hboxes hp
  exact (halias inc hinc).1 hsum

/-- Witness for C6 on the dataset [[0],[10]] with resolution 4: the rows
land in boxes 0 and 3, no offset in {-1,0,1} bridges them, and the output
is empty. -/
theorem C6_nonadjacency_exclusion_witness :
    ((0 : ℕ), (1 : ℕ)) ∉ ([] : List (ℕ × ℕ)) :=
  C6_nonadjacency_exclusion 4 [[(0 : ℚ)], [10]] [[0], [3]] [] 0 1
    eval_pairs_010 eval_rescale_010 ⟨0, by decide, by decide⟩ (by decide)

/-- C10: with grid resolution 1 every row of a valid reduced dataset
rescales to bin 0 on every axis, and `_get_pairs` returns exactly all the
pairs (a, b) with a < b of row indices: the minimum resolution does not
sparsify at all. -/
theorem C10_resolution_one (data : List (List ℚ))
    (resc : List (List ℤ)) (ps : List (ℕ × ℕ))
    (hps : get_pairs 1 data = .ok ps)
    (hresc : rescale_data 1 data = .ok resc) :
    (∀ row ∈ resc, ∀ x ∈ row, x = 0) ∧
      ∀ p : ℕ × ℕ, p ∈ ps ↔ p.1 < p.2 ∧ p.2 < data.length := by
  obtain ⟨resc0, boxes, hne, hk, hresc0, hboxes, hps0⟩ := get_pairs_elim hps
  have hre : resc0 = resc := by
    rw [hresc0] at hresc
    exact Except.ok.inj hresc
  subst hre
  subst hps0
  obtain ⟨hne2, maxs, mins, hmax, hmin, _⟩ := rescale_data_elim hresc0
  obtain ⟨hlen, hrows⟩ := rescale_data_shape hresc0
  have hzero : ∀ row ∈ resc0, ∀ x ∈ row, x = 0 := by
    intro row hrow x hx
    obtain ⟨j, hj, hgetj⟩ := List.getElem_of_mem hrow
    obtain ⟨i, hi, hgeti⟩ := List.getElem_of_mem hx
    have hj2 : j < data.length := hlen ▸ hj
    have hi2 : i < (data.headD []).length := by
      rw [← hrows row hrow]
      exact hi
    obtain ⟨hf, hnn, _⟩ := rescale_entry hmax hmin hresc0 hj2 hi2
    have hgetDj : resc0.getD j [] = row := by
      rw [List.getD_eq_getElem?_getD]
      simp [List.getElem?_eq_getElem hj, hgetj]
    have hgetDi : row.getD i 0 = x := by
      rw [List.getD_eq_getElem?_getD]
      simp [List.getElem?_eq_getElem hi, hgeti]
    rw [hgetDj, hgetDi] at hf
    rw [hf]
    push_cast
    exact min_eq_right (py_int_nonneg hnn)
  refine ⟨hzero, ?_⟩
  intro p
  constructor
  · intro hp
    obtain ⟨hord, _⟩ :=
      emit_pairs_invariant 1 (data.headD []).length boxes
    obtain ⟨_, hb2, _⟩ := emit_pairs_sound_boxid hboxes hp
    exact ⟨hord p hp, hlen ▸ hb2⟩
  · intro ⟨hlt, hb⟩
    have hb2 : p.2 < resc0.length := hlen ▸ hb
    have ha2 : p.1 < resc0.length := lt_trans hlt hb2
    have hadj := forall₂_zeros
      (fun x hx => hzero (resc0.getD p.1 []) (getD_mem [] ha2) x hx)
      (fun x hx => hzero (resc0.getD p.2 []) (getD_mem [] hb2) x hx)
      (by rw [hrows (resc0.getD p.1 []) (getD_mem [] ha2),
        hrows (resc0.getD p.2 []) (getD_mem [] hb2)])
    have := emit_pairs_adjacent hboxes ha2 hb2 hlt
      (hrows (resc0.getD p.1 []) (getD_mem [] ha2)) hadj
    simpa using this

/-- Witness for C10 on the dataset [[0],[5]] with resolution 1. -/
theorem C10_resolution_one_witness :
    (∀ row ∈ [[(0 : ℤ)], [0]], ∀ x ∈ row, x = 0) ∧
      ∀ p : ℕ × ℕ, p ∈ [((0 : ℕ), (1 : ℕ))] ↔
        p.1 < p.2 ∧ p.2 < [[(0 : ℚ)], [5]].length :=
  C10_resolution_one [[(0 : ℚ)], [5]] [[0], [0]] [(0, 1)]
    eval_pairs_r1 eval_rescale_r1

end SparseComputation

namespace SparseComputation

/-!
## State-passing forms for the frame claim

The source never assigns into the array it is handed: `_get_min` and
`_get_max` write only to `minimum`/`maximum`, allocated as fresh copies by
`np.copy(data[0])`; `_rescale_data` appends to the fresh lists `coef`,
`rescaled_vec` and `rescaled_data`; `_get_boxes` writes only the fresh dict
`result`; `_get_pairs` appends to the fresh list `pairs`.  The functions
below make the array state explicit: each returns its result together with
the state of the input array after the call, passing the array through
every statement of the corresponding source loop (there is no assignment
targeting it to reflect). -/

/-- Scan loop of `_get_min` with the array state threaded through. -/
def get_min_loop_st : List ℚ → List (List ℚ) → List (List ℚ) →
    Except SCError (List ℚ) × List (List ℚ)
  | minimum, [], arr => (.ok minimum, arr)
  | minimum, vec :: rest, arr =>
    match vec_min minimum vec with
    | .error e => (.error e, arr)
    | .ok m => get_min_loop_st m rest arr

/-- The call `_get_min(data)` returning the final array state. -/
def get_min_st (data : List (List ℚ)) :
    Except SCError (List ℚ) × List (List ℚ) :=
  match data with
  | [] => (.error .indexError, data)
  | d0 :: _ => get_min_loop_st d0 data data

/-- Scan loop of `_get_max` with the array state threaded through. -/
def get_max_loop_st : List ℚ → List (List ℚ) → List (List ℚ) →
    Except SCError (List ℚ) × List (List ℚ)
  | maximum, [], arr => (.ok maximum, arr)
  | maximum, vec :: rest, arr =>
    match vec_max maximum vec with
    | .error e => (.error e, arr)
    | .ok m => get_max_loop_st m rest arr

/-- The call `_get_max(data)` returning the final array state. -/
def get_max_st (data : List (List ℚ)) :
    Except SCError (List ℚ) × List (List ℚ) :=
  match data with
  | [] => (.error .indexError, data)
  | d0 :: _ => get_max_loop_st d0 data data

/-- The row loop of `_rescale_data` with the array state threaded. -/
def rescale_rows_st (r : ℕ) (minimum coef : List ℚ) :
    List (List ℚ) → List (List ℚ) →
      Except SCError (List (List ℤ)) × List (List ℚ)
  | [], arr => (.ok [], arr)
  | vec :: rest, arr =>
    match rescale_vec r minimum coef vec with
    | .error e => (.error e, arr)
    | .ok rvec =>
      match rescale_rows_st r minimum coef rest arr with
      | (.error e, arr2) => (.error e, arr2)
      | (.ok rrest, arr2) => (.ok (rvec :: rrest), arr2)

/-- The call `_rescale_data(data)` returning the final array state: the min and max
scans run on the array first, then the row loop reads it again. -/
def rescale_data_st (r : ℕ) (data : List (List ℚ)) :
    Except SCError (List (List ℤ)) × List (List ℚ) :=
  match data with
  | [] => (.error .indexError, data)
  | _ :: _ =>
    match get_max_st data with
    | (.error e, arr) => (.error e, arr)
    | (.ok maximum, arr) =>
      match get_min_st arr with
      | (.error e, arr2) => (.error e, arr2)
      | (.ok minimum, arr2) =>
        rescale_rows_st r minimum (coefs r maximum minimum) arr2 arr2

/-- The row loop of `_get_boxes` with the array state threaded. -/
def get_boxes_aux_st (r : ℕ) : ℕ → List (ℤ × List ℕ) → List (List ℤ) →
    List (List ℤ) → Except SCError (List (ℤ × List ℕ)) × List (List ℤ)
  | _, acc, [], arr => (.ok acc, arr)
  | i, acc, row :: rest, arr =>
    match row with
    | [] => (.error .indexError, arr)
    | _ :: _ =>
      get_boxes_aux_st r (i + 1)
        (insert_box acc (index_to_boxe_id r row) i) rest arr

/-- The call `_get_boxes(data)` returning the final array state. -/
def get_boxes_st (r : ℕ) (d : List (List ℤ)) :
    Except SCError (List (ℤ × List ℕ)) × List (List ℤ) :=
  match d with
  | [] => (.error .indexError, d)
  | _ :: _ => get_boxes_aux_st r 0 [] d d

/-- The call `_get_pairs(data)` returning the final state of its input array (the
boxes stage runs on the rescaled matrix, a fresh array). -/
def get_pairs_st (r : ℕ) (data : List (List ℚ)) :
    Except SCError (List (ℕ × ℕ)) × List (List ℚ) :=
  match data with
  | [] => (.error .indexError, data)
  | d0 :: _ =>
    if 3 < d0.length then (.error .valueError, data)
    else
      match rescale_data_st r data with
      | (.error e, arr) => (.error e, arr)
      | (.ok rescaled, arr) =>
        match get_boxes_st r rescaled with
        | (.error e, _) => (.error e, arr)
        | (.ok boxes, _) => (.ok (emit_pairs r d0.length boxes), arr)

lemma get_min_loop_st_eq : ∀ (rows : List (List ℚ)) (minimum arr),
    get_min_loop_st minimum rows arr = (get_min_loop minimum rows, arr) := by
  intro rows
  induction rows with
  | nil => intro minimum arr; rfl
  | cons vec rest ih =>
    intro minimum arr
    simp only [get_min_loop_st, get_min_loop]
    cases vec_min minimum vec with
    | error e => rfl
    | ok m => exact ih m arr

lemma get_min_st_eq (data : List (List ℚ)) :
    get_min_st data = (get_min data, data) := by
  match data with
  | [] => rfl
  | d0 :: rest =>
    simp only [get_min_st, get_min]
    exact get_min_loop_st_eq (d0 :: rest) d0 (d0 :: rest)

lemma get_max_loop_st_eq : ∀ (rows : List (List ℚ)) (maximum arr),
    get_max_loop_st maximum rows arr = (get_max_loop maximum rows, arr) := by
  intro rows
  induction rows with
  | nil => intro maximum arr; rfl
  | cons vec rest ih =>
    intro maximum arr
    simp only [get_max_loop_st, get_max_loop]
    cases vec_max maximum vec with
    | error e => rfl
    | ok m => exact ih m arr

lemma get_max_st_eq (data : List (List ℚ)) :
    get_max_st data = (get_max data, data) := by
  match data with
  | [] => rfl
  | d0 :: rest =>
    simp only [get_max_st, get_max]
    exact get_max_loop_st_eq (d0 :: rest) d0 (d0 :: rest)

lemma rescale_rows_st_eq (r : ℕ) (minimum coef : List ℚ) :
    ∀ (rows arr : List (List ℚ)),
    rescale_rows_st r minimum coef rows arr =
      (rescale_rows r minimum coef rows, arr) := by
  intro rows
  induction rows with
  | nil => intro arr; rfl
  | cons vec rest ih =>
    intro arr
    simp only [rescale_rows_st, rescale_rows]
    cases rescale_vec r minimum coef vec with
    | error e => rfl
    | ok rvec =>
      rw [ih arr]
      cases rescale_rows r minimum coef rest with
      | error e => rfl
      | ok rrest => rfl

lemma rescale_data_st_eq (r : ℕ) (data : List (List ℚ)) :
    rescale_data_st r data = (rescale_data r data, data) := by
  match data with
  | [] => rfl
  | d0 :: rest =>
    simp only [rescale_data_st, rescale_data, get_max_st_eq, get_min_st_eq]
    cases get_max (d0 :: rest) with
    | error e => rfl
    | ok maximum =>
      simp only [get_min_st_eq]
      cases get_min (d0 :: rest) with
      | error e => rfl
      | ok minimum => exact rescale_rows_st_eq r minimum _ _ _

lemma get_boxes_aux_st_eq (r : ℕ) : ∀ (rows : List (List ℤ)) (i acc arr),
    get_boxes_aux_st r i acc rows arr = (get_boxes_aux r i acc rows, arr) := by
  intro rows
  induction rows with
  | nil => intro i acc arr; rfl
  | cons row rest ih =>
    intro i acc arr
    match row with
    | [] => rfl
    | a :: row => exact ih (i + 1) _ arr

lemma get_boxes_st_eq (r : ℕ) (d : List (List ℤ)) :
    get_boxes_st r d = (get_boxes r d, d) := by
  match d with
  | [] => rfl
  | row0 :: rest =>
    simp only [get_boxes_st, get_boxes]
    exact get_boxes_aux_st_eq r (row0 :: rest) 0 [] (row0 :: rest)

lemma get_pairs_st_eq (r : ℕ) (data : List (List ℚ)) :
    get_pairs_st r data = (get_pairs r data, data) := by
  match data with
  | [] => rfl
  | d0 :: rest =>
    simp only [get_pairs_st, get_pairs]
    split
    · rfl
    · simp only [rescale_data_st_eq]
      cases rescale_data r (d0 :: rest) with
      | error e => rfl
      | ok rescaled =>
        simp only [get_boxes_st_eq]
        cases get_boxes r rescaled with
        | error e => rfl
        | ok boxes => rfl

/-- C9: none of the five stages mutates the matrix it is given — in the
state-passing embedding the array component returned by each stage equals
the input, and the result component agrees with the plain function. -/
theorem C9_no_mutation (r : ℕ) (data : List (List ℚ))
    (d : List (List ℤ)) :
    (get_min_st data).2 = data ∧ (get_max_st data).2 = data ∧
      (rescale_data_st r data).2 = data ∧ (get_boxes_st r d).2 = d ∧
      (get_pairs_st r data).2 = data ∧
      (get_min_st data).1 = get_min data ∧
      (get_max_st data).1 = get_max data ∧
      (rescale_data_st r data).1 = rescale_data r data ∧
      (get_boxes_st r d).1 = get_boxes r d ∧
      (get_pairs_st r data).1 = get_pairs r data := by
  rw [get_min_st_eq, get_max_st_eq, rescale_data_st_eq, get_boxes_st_eq,
    get_pairs_st_eq]
  simp

end SparseComputation
